import Mathlib

/-!
# Verification of the SKIRT parallel execution core

A shallow embedding, in Lean 4, of the parallel execution core of the SKIRT
radiative-transfer framework:

* the collective reduction layer (`src/SKIRT/mpi/ProcessManager.cpp`):
  process-group state, `ProcessManager::initialize`, and the element-wise
  sum reductions `sumToAll` / `sumToRoot`, including the fragmentation of
  buffers larger than `maxMessageSize` into several collective calls;
* the work distribution engine (`MultiThreadParallel` and its `MultiParallel`
  base): chunk claiming over a shared atomic cursor.  Only the header
  `src/SKIRT/core/MultiThreadParallel.hpp` is available, so the claiming
  loop and the error propagation are modelled from the specification.

Buffers hold mathematical values (`ℤ`) rather than IEEE doubles: all the
properties verified here concern which elements are combined (partitioning,
fragment boundaries, element-wise sums), none depend on rounding.
-/

namespace SKIRT

/-- `INT_MAX` for the 32-bit `int` used by the MPI element-count parameters. -/
def INT_MAX : ℕ := 2147483647

/-- From `ProcessManager.cpp`: `const size_t maxMessageSize = INT_MAX - 2;` —
    messages are broken up into pieces of at most this many elements. -/
def maxMessageSize : ℕ := INT_MAX - 2

theorem maxMessageSize_pos : 0 < maxMessageSize := by decide

/-- The sequence of `(offset, count)` pairs passed to `MPI_Allreduce` by
    `ProcessManager::sumToAll` (lines 81-89): starting from `data` at `offset`
    with `remaining` elements, while `remaining > maxMessageSize` issue a call
    of `maxMessageSize` elements and advance, then issue one final call with
    the remaining count (possibly zero). -/
def allCallsAux (offset remaining : ℕ) : List (ℕ × ℕ) :=
  if _h : maxMessageSize < remaining then
    (offset, maxMessageSize) :: allCallsAux (offset + maxMessageSize) (remaining - maxMessageSize)
  else
    [(offset, remaining)]
termination_by remaining
decreasing_by
  have h0 : 0 < maxMessageSize := maxMessageSize_pos
  omega

/-- The sequence of `(offset, count)` pairs passed to `MPI_Reduce` by
    `ProcessManager::sumToRoot` (lines 103-119): the same loop shape as
    `sumToAll`, with the root/non-root distinction affecting only which of
    the two `MPI_Reduce` argument forms is used, not the offsets or counts. -/
def rootCallsAux (offset remaining : ℕ) : List (ℕ × ℕ) :=
  if _h : maxMessageSize < remaining then
    (offset, maxMessageSize) :: rootCallsAux (offset + maxMessageSize) (remaining - maxMessageSize)
  else
    [(offset, remaining)]
termination_by remaining
decreasing_by
  have h0 : 0 < maxMessageSize := maxMessageSize_pos
  omega

theorem allCallsAux_gt (offset remaining : ℕ) (h : maxMessageSize < remaining) :
    allCallsAux offset remaining =
      (offset, maxMessageSize) ::
        allCallsAux (offset + maxMessageSize) (remaining - maxMessageSize) := by
  rw [allCallsAux]
  simp [h]

theorem allCallsAux_le (offset remaining : ℕ) (h : remaining ≤ maxMessageSize) :
    allCallsAux offset remaining = [(offset, remaining)] := by
  rw [allCallsAux]
  simp [Nat.not_lt.mpr h]

theorem rootCallsAux_gt (offset remaining : ℕ) (h : maxMessageSize < remaining) :
    rootCallsAux offset remaining =
      (offset, maxMessageSize) ::
        rootCallsAux (offset + maxMessageSize) (remaining - maxMessageSize) := by
  rw [rootCallsAux]
  simp [h]

theorem rootCallsAux_le (offset remaining : ℕ) (h : remaining ≤ maxMessageSize) :
    rootCallsAux offset remaining = [(offset, remaining)] := by
  rw [rootCallsAux]
  simp [Nat.not_lt.mpr h]

/-- The two loops issue identical `(offset, count)` sequences. -/
theorem rootCallsAux_eq_allCallsAux (remaining : ℕ) :
    ∀ offset, rootCallsAux offset remaining = allCallsAux offset remaining := by
  induction remaining using Nat.strong_induction_on with
  | _ n ih =>
    intro offset
    by_cases h : maxMessageSize < n
    · rw [rootCallsAux_gt _ _ h, allCallsAux_gt _ _ h,
        ih (n - maxMessageSize) (by have := maxMessageSize_pos; omega)]
    · rw [rootCallsAux_le _ _ (Nat.not_lt.mp h), allCallsAux_le _ _ (Nat.not_lt.mp h)]

/-- Concatenating the index ranges of the issued calls reconstructs the
    contiguous range `[offset, offset + remaining)`: every buffer element
    belongs to exactly one fragment, in increasing order. -/
theorem allCallsAux_flatMap_range (remaining : ℕ) :
    ∀ offset, ((allCallsAux offset remaining).flatMap fun c => List.range' c.1 c.2) =
      List.range' offset remaining := by
  induction remaining using Nat.strong_induction_on with
  | _ n ih =>
    intro offset
    by_cases h : maxMessageSize < n
    · rw [allCallsAux_gt _ _ h]
      rw [List.flatMap_cons, ih (n - maxMessageSize) (by have := maxMessageSize_pos; omega)]
      have : n - maxMessageSize + maxMessageSize = n := by omega
      simp only [List.range'_append_1, this]
    · rw [allCallsAux_le _ _ (Nat.not_lt.mp h)]
      simp

/-- Every issued call has a count of at most `maxMessageSize`. -/
theorem allCallsAux_count_le (remaining : ℕ) :
    ∀ offset, ∀ c ∈ allCallsAux offset remaining, c.2 ≤ maxMessageSize := by
  induction remaining using Nat.strong_induction_on with
  | _ n ih =>
    intro offset c hc
    by_cases h : maxMessageSize < n
    · rw [allCallsAux_gt _ _ h] at hc
      rcases List.mem_cons.mp hc with h1 | h1
      · subst h1; exact le_refl _
      · exact ih (n - maxMessageSize) (by have := maxMessageSize_pos; omega) _ c h1
    · rw [allCallsAux_le _ _ (Nat.not_lt.mp h)] at hc
      rcases List.mem_singleton.mp hc with rfl
      exact Nat.not_lt.mp h

/-- When the total count is positive, every issued call is nonempty. -/
theorem allCallsAux_count_pos (remaining : ℕ) :
    ∀ offset, 0 < remaining → ∀ c ∈ allCallsAux offset remaining, 0 < c.2 := by
  induction remaining using Nat.strong_induction_on with
  | _ n ih =>
    intro offset hn c hc
    by_cases h : maxMessageSize < n
    · rw [allCallsAux_gt _ _ h] at hc
      rcases List.mem_cons.mp hc with h1 | h1
      · subst h1; exact maxMessageSize_pos
      · exact ih (n - maxMessageSize) (by have := maxMessageSize_pos; omega)
          _ (by have := maxMessageSize_pos; omega) c h1
    · rw [allCallsAux_le _ _ (Nat.not_lt.mp h)] at hc
      rcases List.mem_singleton.mp hc with rfl
      exact hn

/-- The first issued call starts at the given offset. -/
theorem allCallsAux_head (offset remaining : ℕ) :
    ∃ k l, allCallsAux offset remaining = (offset, k) :: l := by
  by_cases h : maxMessageSize < remaining
  · exact ⟨_, _, allCallsAux_gt _ _ h⟩
  · exact ⟨_, _, allCallsAux_le _ _ (Nat.not_lt.mp h)⟩

/-- Consecutive calls are adjacent: each one starts where the previous ended. -/
theorem allCallsAux_chain_adjacent (remaining : ℕ) :
    ∀ offset, List.Chain' (fun a b : ℕ × ℕ => b.1 = a.1 + a.2)
      (allCallsAux offset remaining) := by
  induction remaining using Nat.strong_induction_on with
  | _ n ih =>
    intro offset
    by_cases h : maxMessageSize < n
    · rw [allCallsAux_gt _ _ h]
      refine List.chain'_cons'.mpr ⟨?_, ih (n - maxMessageSize)
        (by have := maxMessageSize_pos; omega) _⟩
      intro y hy
      obtain ⟨k, l, hkl⟩ := allCallsAux_head (offset + maxMessageSize) (n - maxMessageSize)
      rw [hkl] at hy
      simp only [List.head?_cons, Option.mem_def, Option.some.injEq] at hy
      subst hy
      rfl
    · rw [allCallsAux_le _ _ (Nat.not_lt.mp h)]
      exact List.chain'_singleton _

/-- Calls are issued in strictly increasing offset order. -/
theorem allCallsAux_chain_mono (remaining : ℕ) :
    ∀ offset, List.Chain' (fun a b : ℕ × ℕ => a.1 < b.1)
      (allCallsAux offset remaining) := by
  induction remaining using Nat.strong_induction_on with
  | _ n ih =>
    intro offset
    by_cases h : maxMessageSize < n
    · rw [allCallsAux_gt _ _ h]
      refine List.chain'_cons'.mpr ⟨?_, ih (n - maxMessageSize)
        (by have := maxMessageSize_pos; omega) _⟩
      intro y hy
      obtain ⟨k, l, hkl⟩ := allCallsAux_head (offset + maxMessageSize) (n - maxMessageSize)
      rw [hkl] at hy
      simp only [List.head?_cons, Option.mem_def, Option.some.injEq] at hy
      subst hy
      have := maxMessageSize_pos
      simp
      omega
    · rw [allCallsAux_le _ _ (Nat.not_lt.mp h)]
      exact List.chain'_singleton _

/-! ## Collective reduction semantics

A process group with `P` participants is a list of `P` buffers, one per rank
(index `r` is the buffer of the process with rank `r`).  `MPI_Allreduce` with
`MPI_SUM` over a sub-range replaces, on every rank, each element of that
sub-range by the element-wise sum over all ranks; `MPI_Reduce` does so only on
the root (rank 0) and leaves the other ranks' receive buffers untouched. -/

/-- The element-wise sum, at index `i`, over all participants' buffers
    (out-of-range positions contribute `0`). -/
def sumAt (bufs : List (List ℤ)) (i : ℕ) : ℤ :=
  (bufs.map fun b => b.getD i 0).sum

/-- One participant's view of a sum reduction over `[offset, offset + count)`:
    elements of that sub-range are replaced by the group-wide element-wise sum,
    all other elements of `b` are retained. -/
def reduceSlice (bufs : List (List ℤ)) (offset count : ℕ) (b : List ℤ) : List ℤ :=
  (List.range b.length).map fun i =>
    if offset ≤ i ∧ i < offset + count then sumAt bufs i else b.getD i 0

/-- `MPI_Allreduce(MPI_IN_PLACE, data + offset, count, MPI_DOUBLE, MPI_SUM, ...)`:
    every rank receives the element-wise sums on `[offset, offset + count)`. -/
def mpiAllreduceSum (bufs : List (List ℤ)) (offset count : ℕ) : List (List ℤ) :=
  bufs.map (reduceSlice bufs offset count)

/-- `MPI_Reduce(..., count, MPI_DOUBLE, MPI_SUM, 0, ...)`: only the root
    (rank 0) receives the element-wise sums on `[offset, offset + count)`; the
    non-root receive buffers are not significant and are left unchanged. -/
def mpiReduceSum (bufs : List (List ℤ)) (offset count : ℕ) : List (List ℤ) :=
  match bufs with
  | [] => []
  | b :: rest => reduceSlice (b :: rest) offset count b :: rest

/-- `ProcessManager::sumToAll` (lines 76-94), seen from the whole group: when
    the group has more than one process (`isMultiProc()`), each process walks
    its buffer issuing the `allCallsAux` sequence of in-place all-reduce calls;
    otherwise the function does nothing.  `L` is the common `arr.size()`. -/
def sumToAll (L : ℕ) (bufs : List (List ℤ)) : List (List ℤ) :=
  if 1 < bufs.length then
    (allCallsAux 0 L).foldl (fun bs c => mpiAllreduceSum bs c.1 c.2) bufs
  else bufs

/-- `ProcessManager::sumToRoot` (lines 98-124), seen from the whole group. -/
def sumToRoot (L : ℕ) (bufs : List (List ℤ)) : List (List ℤ) :=
  if 1 < bufs.length then
    (rootCallsAux 0 L).foldl (fun bs c => mpiReduceSum bs c.1 c.2) bufs
  else bufs

/-- The element of participant `r`'s buffer at index `i` (0 when out of range). -/
def elemAt (bufs : List (List ℤ)) (r i : ℕ) : ℤ :=
  (bufs.getD r []).getD i 0

theorem getD_of_length_le (l : List ℤ) (i : ℕ) (h : l.length ≤ i) :
    l.getD i 0 = 0 := by
  simp [List.getD_eq_getElem?_getD, List.getElem?_eq_none h]

theorem reduceSlice_length (bufs : List (List ℤ)) (offset count : ℕ) (b : List ℤ) :
    (reduceSlice bufs offset count b).length = b.length := by
  simp [reduceSlice]

theorem reduceSlice_getD (bufs : List (List ℤ)) (offset count : ℕ) (b : List ℤ) (i : ℕ) :
    (reduceSlice bufs offset count b).getD i 0 =
      if i < b.length then
        (if offset ≤ i ∧ i < offset + count then sumAt bufs i else b.getD i 0)
      else 0 := by
  by_cases h : i < b.length
  · have hlt : i < (reduceSlice bufs offset count b).length := by
      rw [reduceSlice_length]; exact h
    rw [List.getD_eq_getElem?_getD, List.getElem?_eq_getElem hlt]
    simp only [Option.getD_some, if_pos h]
    simp [reduceSlice]
  · rw [getD_of_length_le _ _ (by rw [reduceSlice_length]; omega)]
    rw [if_neg h]

/-- Outside the reduced sub-range, `reduceSlice` preserves each element. -/
theorem reduceSlice_getD_outside (bufs : List (List ℤ)) (offset count : ℕ)
    (b : List ℤ) (i : ℕ) (h : ¬(offset ≤ i ∧ i < offset + count)) :
    (reduceSlice bufs offset count b).getD i 0 = b.getD i 0 := by
  rw [reduceSlice_getD]
  by_cases hi : i < b.length
  · simp [hi, h]
  · rw [if_neg hi, getD_of_length_le _ _ (by omega)]

/-- The group-wide element-wise sum at a position outside the reduced
    sub-range is unchanged by an all-reduce call. -/
theorem sumAt_mpiAllreduceSum (bufs : List (List ℤ)) (offset count i : ℕ)
    (h : ¬(offset ≤ i ∧ i < offset + count)) :
    sumAt (mpiAllreduceSum bufs offset count) i = sumAt bufs i := by
  unfold sumAt mpiAllreduceSum
  rw [List.map_map]
  refine congrArg _ (List.map_congr_left ?_)
  intro b _
  exact reduceSlice_getD_outside bufs offset count b i h

/-- Likewise for a reduce-to-root call. -/
theorem sumAt_mpiReduceSum (bufs : List (List ℤ)) (offset count i : ℕ)
    (h : ¬(offset ≤ i ∧ i < offset + count)) :
    sumAt (mpiReduceSum bufs offset count) i = sumAt bufs i := by
  match bufs with
  | [] => rfl
  | b :: rest =>
    unfold sumAt mpiReduceSum
    simp only [List.map_cons, List.sum_cons]
    rw [reduceSlice_getD_outside _ offset count b i h]

theorem mpiAllreduceSum_length (bufs : List (List ℤ)) (offset count : ℕ) :
    (mpiAllreduceSum bufs offset count).length = bufs.length := by
  simp [mpiAllreduceSum]

theorem mpiReduceSum_length (bufs : List (List ℤ)) (offset count : ℕ) :
    (mpiReduceSum bufs offset count).length = bufs.length := by
  match bufs with
  | [] => rfl
  | b :: rest => simp [mpiReduceSum]

theorem mpiAllreduceSum_mem_length (bufs : List (List ℤ)) (offset count : ℕ) (L : ℕ)
    (hlen : ∀ b ∈ bufs, b.length = L) :
    ∀ b ∈ mpiAllreduceSum bufs offset count, b.length = L := by
  intro b hb
  obtain ⟨a, ha, rfl⟩ := List.mem_map.mp hb
  rw [reduceSlice_length]
  exact hlen a ha

theorem mpiReduceSum_mem_length (bufs : List (List ℤ)) (offset count : ℕ) (L : ℕ)
    (hlen : ∀ b ∈ bufs, b.length = L) :
    ∀ b ∈ mpiReduceSum bufs offset count, b.length = L := by
  match bufs with
  | [] => intro b hb; cases hb
  | b0 :: rest =>
    intro b hb
    rcases List.mem_cons.mp hb with rfl | h
    · rw [reduceSlice_length]; exact hlen b0 (List.mem_cons_self b0 rest)
    · exact hlen b (List.mem_cons_of_mem _ h)

theorem getD_map_bufs (g : List ℤ → List ℤ) (bufs : List (List ℤ)) (r : ℕ) :
    (bufs.map g).getD r [] = if r < bufs.length then g (bufs.getD r []) else [] := by
  by_cases h : r < bufs.length
  · have hm : r < (bufs.map g).length := by simpa using h
    rw [List.getD_eq_getElem?_getD, List.getElem?_eq_getElem hm]
    simp only [Option.getD_some, List.getElem_map, if_pos h]
    rw [List.getD_eq_getElem?_getD, List.getElem?_eq_getElem h]
    rfl
  · rw [if_neg h, List.getD_eq_getElem?_getD,
      List.getElem?_eq_none (by simpa using Nat.le_of_not_lt h)]
    rfl

/-- Pointwise effect of one all-reduce call. -/
theorem elemAt_mpiAllreduceSum (bufs : List (List ℤ)) (offset count : ℕ) (L : ℕ)
    (hlen : ∀ b ∈ bufs, b.length = L) (hfit : offset + count ≤ L) (r i : ℕ) :
    elemAt (mpiAllreduceSum bufs offset count) r i =
      if r < bufs.length ∧ offset ≤ i ∧ i < offset + count then sumAt bufs i
      else elemAt bufs r i := by
  unfold elemAt mpiAllreduceSum
  rw [getD_map_bufs]
  by_cases hr : r < bufs.length
  · rw [if_pos hr]
    have hmem : bufs.getD r [] ∈ bufs := by
      rw [List.getD_eq_getElem?_getD, List.getElem?_eq_getElem hr]
      exact List.getElem_mem hr
    have hblen : (bufs.getD r []).length = L := hlen _ hmem
    rw [reduceSlice_getD]
    by_cases hin : offset ≤ i ∧ i < offset + count
    · have hi : i < (bufs.getD r []).length := by omega
      rw [if_pos hi, if_pos hin, if_pos ⟨hr, hin⟩]
    · rw [if_neg (show ¬(r < bufs.length ∧ offset ≤ i ∧ i < offset + count) from
        fun hc => hin hc.2)]
      by_cases hi : i < (bufs.getD r []).length
      · rw [if_pos hi, if_neg hin]
      · rw [if_neg hi, getD_of_length_le _ _ (by omega)]
  · rw [if_neg hr,
      if_neg (show ¬(r < bufs.length ∧ offset ≤ i ∧ i < offset + count) from
        fun hc => hr hc.1)]
    have hnil : bufs.getD r [] = [] := by
      rw [List.getD_eq_getElem?_getD, List.getElem?_eq_none (by omega)]
      rfl
    rw [hnil]

/-- Pointwise effect of one reduce-to-root call: only rank 0 changes. -/
theorem elemAt_mpiReduceSum (bufs : List (List ℤ)) (offset count : ℕ) (L : ℕ)
    (hlen : ∀ b ∈ bufs, b.length = L) (hfit : offset + count ≤ L) (r i : ℕ) :
    elemAt (mpiReduceSum bufs offset count) r i =
      if r = 0 ∧ r < bufs.length ∧ offset ≤ i ∧ i < offset + count then sumAt bufs i
      else elemAt bufs r i := by
  match bufs with
  | [] =>
    show elemAt ([] : List (List ℤ)) r i = _
    rw [if_neg (show ¬(r = 0 ∧ r < ([] : List (List ℤ)).length ∧ _) from
      fun hc => by simp at hc)]
  | b :: rest =>
    match r with
    | 0 =>
      show elemAt (reduceSlice (b :: rest) offset count b :: rest) 0 i = _
      unfold elemAt
      simp only [List.getD_cons_zero]
      have hblen : b.length = L := hlen b (List.mem_cons_self b rest)
      rw [reduceSlice_getD]
      by_cases hin : offset ≤ i ∧ i < offset + count
      · have hi : i < b.length := by omega
        rw [if_pos hi, if_pos hin]
        simp [hin.1, hin.2]
      · by_cases hi : i < b.length
        · rw [if_pos hi, if_neg hin]
          simp [hin]
        · rw [if_neg hi, getD_of_length_le b i (by omega)]
          simp [hin]
    | r + 1 =>
      show elemAt (reduceSlice (b :: rest) offset count b :: rest) (r + 1) i = _
      unfold elemAt
      simp only [List.getD_cons_succ]
      rw [if_neg (by omega)]

/-- Invariant of the `sumToAll` fragment loop: folding the all-reduce calls of
    `allCallsAux offset n` over the group replaces exactly the elements of
    `[offset, offset + n)` of every buffer by the group-wide element-wise sums
    of the original buffers, retaining everything else. -/
theorem foldl_allreduce (n : ℕ) :
    ∀ (offset : ℕ) (bufs : List (List ℤ)) (L : ℕ),
      (∀ b ∈ bufs, b.length = L) → offset + n ≤ L →
      ((allCallsAux offset n).foldl (fun bs c => mpiAllreduceSum bs c.1 c.2) bufs).length
          = bufs.length ∧
      (∀ b ∈ (allCallsAux offset n).foldl (fun bs c => mpiAllreduceSum bs c.1 c.2) bufs,
          b.length = L) ∧
      ∀ r i,
        elemAt ((allCallsAux offset n).foldl (fun bs c => mpiAllreduceSum bs c.1 c.2) bufs) r i =
          if r < bufs.length ∧ offset ≤ i ∧ i < offset + n then sumAt bufs i
          else elemAt bufs r i := by
  induction n using Nat.strong_induction_on with
  | _ n ih =>
    intro offset bufs L hlen hfit
    by_cases h : maxMessageSize < n
    · have hM := maxMessageSize_pos
      rw [allCallsAux_gt _ _ h, List.foldl_cons]
      have hfit1 : offset + maxMessageSize ≤ L := by omega
      have hlen' : ∀ b ∈ mpiAllreduceSum bufs offset maxMessageSize, b.length = L :=
        mpiAllreduceSum_mem_length bufs offset maxMessageSize L hlen
      obtain ⟨ihlen, ihmem, ihelem⟩ := ih (n - maxMessageSize) (by omega)
        (offset + maxMessageSize) (mpiAllreduceSum bufs offset maxMessageSize) L hlen' (by omega)
      refine ⟨by rw [ihlen, mpiAllreduceSum_length], ihmem, ?_⟩
      intro r i
      rw [ihelem r i, mpiAllreduceSum_length]
      have harith : offset + maxMessageSize + (n - maxMessageSize) = offset + n := by omega
      rw [harith]
      have helem1 := elemAt_mpiAllreduceSum bufs offset maxMessageSize L hlen hfit1 r i
      split_ifs with h1 h2 h2
      · exact sumAt_mpiAllreduceSum bufs offset maxMessageSize i (by omega)
      · exact absurd ⟨h1.1, by omega, by omega⟩ h2
      · rw [helem1, if_pos ⟨h2.1, h2.2.1, by omega⟩]
      · rw [helem1, if_neg (fun hc => h2 ⟨hc.1, hc.2.1, by omega⟩)]
    · rw [allCallsAux_le _ _ (Nat.not_lt.mp h), List.foldl_cons, List.foldl_nil]
      exact ⟨mpiAllreduceSum_length bufs offset n,
        mpiAllreduceSum_mem_length bufs offset n L hlen,
        elemAt_mpiAllreduceSum bufs offset n L hlen hfit⟩

/-- Invariant of the `sumToRoot` fragment loop: only the root's elements of
    `[offset, offset + n)` are replaced by the group-wide element-wise sums;
    every other element of every buffer is retained. -/
theorem foldl_reduce (n : ℕ) :
    ∀ (offset : ℕ) (bufs : List (List ℤ)) (L : ℕ),
      (∀ b ∈ bufs, b.length = L) → offset + n ≤ L →
      ((rootCallsAux offset n).foldl (fun bs c => mpiReduceSum bs c.1 c.2) bufs).length
          = bufs.length ∧
      (∀ b ∈ (rootCallsAux offset n).foldl (fun bs c => mpiReduceSum bs c.1 c.2) bufs,
          b.length = L) ∧
      ∀ r i,
        elemAt ((rootCallsAux offset n).foldl (fun bs c => mpiReduceSum bs c.1 c.2) bufs) r i =
          if r = 0 ∧ r < bufs.length ∧ offset ≤ i ∧ i < offset + n then sumAt bufs i
          else elemAt bufs r i := by
  induction n using Nat.strong_induction_on with
  | _ n ih =>
    intro offset bufs L hlen hfit
    by_cases h : maxMessageSize < n
    · have hM := maxMessageSize_pos
      rw [rootCallsAux_gt _ _ h, List.foldl_cons]
      have hfit1 : offset + maxMessageSize ≤ L := by omega
      have hlen' : ∀ b ∈ mpiReduceSum bufs offset maxMessageSize, b.length = L :=
        mpiReduceSum_mem_length bufs offset maxMessageSize L hlen
      obtain ⟨ihlen, ihmem, ihelem⟩ := ih (n - maxMessageSize) (by omega)
        (offset + maxMessageSize) (mpiReduceSum bufs offset maxMessageSize) L hlen' (by omega)
      refine ⟨by rw [ihlen, mpiReduceSum_length], ihmem, ?_⟩
      intro r i
      rw [ihelem r i, mpiReduceSum_length]
      have harith : offset + maxMessageSize + (n - maxMessageSize) = offset + n := by omega
      rw [harith]
      have helem1 := elemAt_mpiReduceSum bufs offset maxMessageSize L hlen hfit1 r i
      split_ifs with h1 h2 h2
      · exact sumAt_mpiReduceSum bufs offset maxMessageSize i (by omega)
      · exact absurd ⟨h1.1, h1.2.1, by omega, by omega⟩ h2
      · rw [helem1, if_pos ⟨h2.1, h2.2.1, h2.2.2.1, by omega⟩]
      · rw [helem1, if_neg (fun hc => h2 ⟨hc.1, hc.2.1, hc.2.2.1, by omega⟩)]
    · rw [rootCallsAux_le _ _ (Nat.not_lt.mp h), List.foldl_cons, List.foldl_nil]
      exact ⟨mpiReduceSum_length bufs offset n,
        mpiReduceSum_mem_length bufs offset n L hlen,
        elemAt_mpiReduceSum bufs offset n L hlen hfit⟩

/-! ## Refinement reference: a transport without a message-size ceiling

For the refinement claim, the same operations written against a hypothetical
transport that accepts arbitrarily large payloads: the whole buffer is handed
to a single collective call. -/

/-- `sumToAll` over an unbounded transport: one all-reduce call covering the
    whole buffer (spec: "a hypothetical single unbounded collective call on
    the full buffer"). -/
def sumToAllUnbounded (L : ℕ) (bufs : List (List ℤ)) : List (List ℤ) :=
  if 1 < bufs.length then mpiAllreduceSum bufs 0 L else bufs

/-- `sumToRoot` over an unbounded transport: one reduce-to-root call covering
    the whole buffer. -/
def sumToRootUnbounded (L : ℕ) (bufs : List (List ℤ)) : List (List ℤ) :=
  if 1 < bufs.length then mpiReduceSum bufs 0 L else bufs

/-! ## Per-participant collective call traces

Each process walks the fragment loop using its own `arr.size()`; these are the
`(offset, count)` sequences it hands to the transport. -/

/-- The collective calls one participant issues for `sumToAll` on its own
    buffer `arr`: none when the group is a single process, otherwise the
    fragment sequence determined by `arr.size()`. -/
def participantAllCalls (P : ℕ) (arr : List ℤ) : List (ℕ × ℕ) :=
  if 1 < P then allCallsAux 0 arr.length else []

/-- The collective calls one participant issues for `sumToRoot`. -/
def participantRootCalls (P : ℕ) (arr : List ℤ) : List (ℕ × ℕ) :=
  if 1 < P then rootCallsAux 0 arr.length else []

/-! ## Process-group state and `ProcessManager::initialize`

`ProcessManager.cpp` lines 15-16 statically initialize `_size = 1`, `_rank = 0`
(the non-MPI defaults).  `initialize` (lines 32-54, MPI build) calls
`MPI_Init_thread(..., MPI_THREAD_FUNNELED, &provided)` when MPI is not yet
initialized, throws a fatal error when `provided < MPI_THREAD_FUNNELED`, and
otherwise stores the communicator size and rank. -/

/-- MPI threading-level constants, in their mandated order. -/
def MPI_THREAD_SINGLE : ℕ := 0

/-- The funneled threading level requested by `ProcessManager::initialize`. -/
def MPI_THREAD_FUNNELED : ℕ := 1

/-- The process-wide state of `ProcessManager`: the statics `_size`, `_rank`. -/
structure PMState where
  size : ℤ
  rank : ℤ
deriving DecidableEq, Repr

/-- The statically initialized non-MPI defaults (`_size = 1`, `_rank = 0`). -/
def PMState.default : PMState := ⟨1, 0⟩

/-- What the MPI transport would report to `ProcessManager::initialize`:
    whether MPI is already initialized, the threading level `provided` by
    `MPI_Init_thread`, and the communicator size and rank. -/
structure MPIEnv where
  isInitialized : Bool
  provided : ℕ
  commSize : ℤ
  commRank : ℤ
deriving DecidableEq, Repr

/-- The `FATALERROR` message thrown by `ProcessManager::initialize`. -/
def funneledErrorMessage : String :=
  "MPI implementation does not support funneled threads"

/-- `ProcessManager::initialize` (MPI build): no-op when MPI is already
    initialized; otherwise fatal (`FATALERROR`) when the implementation
    provides less than `MPI_THREAD_FUNNELED`, else record size and rank. -/
def pmInit (env : MPIEnv) (st : PMState) : Except String PMState :=
  if env.isInitialized then .ok st
  else if env.provided < MPI_THREAD_FUNNELED then
    .error funneledErrorMessage
  else .ok ⟨env.commSize, env.commRank⟩

/-! ## Work distribution: chunk claiming over the shared atomic cursor

Modelled from the spec: the bodies of `MultiParallel`/`MultiThreadParallel`
(the `call`/`doSomeWork` loop over the atomic `_nextIndex` cursor declared in
`src/SKIRT/core/MultiThreadParallel.hpp`) are not part of the sources at
hand, so the claiming protocol is taken from the specification: every claim
is an atomic fetch-and-add of the chunk size against the shared cursor; the
`k`-th fetch-and-add (over all threads, in cursor order) returns the prior
value `k * chunkSize`; a thread that observes a prior value `≥ maxIndex`
claims nothing and stops; otherwise it executes the chunk
`[prior, prior + chunkSize)` clipped to `maxIndex`. -/

/-- Modelled from the spec: the chunk claimed by the `k`-th fetch-and-add on
    the shared cursor, as a `(firstIndex, numIndices)` pair — `none` when the
    cursor was already exhausted. -/
def chunkOfEvent (chunkSize maxIndex k : ℕ) : Option (ℕ × ℕ) :=
  if k * chunkSize < maxIndex then
    some (k * chunkSize, min chunkSize (maxIndex - k * chunkSize))
  else none

/-- Modelled from the spec: the chunks claimed during one dispatch in which
    `N` fetch-and-add events occurred (across all participating threads, in
    the order imposed by the shared atomic cursor). -/
def claimedChunks (chunkSize maxIndex N : ℕ) : List (ℕ × ℕ) :=
  (List.range N).filterMap (chunkOfEvent chunkSize maxIndex)

/-- Modelled from the spec: executing claimed chunks with a callback that may
    raise.  Returns the count of indices whose chunks ran to completion and
    the captured error, if any: a chunk that succeeds contributes its size and
    execution continues; the first chunk whose callback raises stops all
    further claiming, and its error is the one re-raised (exactly once) to the
    caller of dispatch. -/
def runChunks {ε : Type} (f : ℕ × ℕ → Option ε) : List (ℕ × ℕ) → ℕ × Option ε
  | [] => (0, none)
  | ch :: rest =>
    match f ch with
    | none =>
      let r := runChunks f rest
      (ch.2 + r.1, r.2)
    | some e => (0, some e)

/-- Concatenating the claimed chunk ranges yields the range claimed so far:
    all of `[0, maxIndex)` once `N * chunkSize` reaches `maxIndex`. -/
theorem claimedChunks_flatMap (chunkSize maxIndex N : ℕ) :
    ((claimedChunks chunkSize maxIndex N).flatMap fun p => List.range' p.1 p.2) =
      List.range (min (N * chunkSize) maxIndex) := by
  induction N with
  | zero => simp [claimedChunks]
  | succ N ihN =>
    rw [claimedChunks, List.range_succ, List.filterMap_append, List.flatMap_append]
    rw [show (List.range N).filterMap (chunkOfEvent chunkSize maxIndex)
        = claimedChunks chunkSize maxIndex N from rfl, ihN]
    by_cases h : N * chunkSize < maxIndex
    · rw [show List.filterMap (chunkOfEvent chunkSize maxIndex) [N]
          = [(N * chunkSize, min chunkSize (maxIndex - N * chunkSize))] from by
        simp [chunkOfEvent, h]]
      rw [Nat.min_eq_left (Nat.le_of_lt h)]
      rw [List.flatMap_cons, List.flatMap_nil, List.append_nil, List.range_eq_range']
      rw [show List.range' (N * chunkSize) (min chunkSize (maxIndex - N * chunkSize))
          = List.range' (0 + N * chunkSize) (min chunkSize (maxIndex - N * chunkSize)) from by
        rw [Nat.zero_add]]
      rw [List.range'_append_1, ← List.range_eq_range']
      have harith : min chunkSize (maxIndex - N * chunkSize) + N * chunkSize
          = min ((N + 1) * chunkSize) maxIndex := by
        rw [Nat.succ_mul]
        omega
      rw [harith]
    · rw [show List.filterMap (chunkOfEvent chunkSize maxIndex) [N] = [] from by
        simp [chunkOfEvent, h]]
      rw [List.flatMap_nil, List.append_nil]
      have harith : min (N * chunkSize) maxIndex = min ((N + 1) * chunkSize) maxIndex := by
        rw [Nat.succ_mul]
        omega
      rw [harith]

/-- Characterization of a claimed chunk: the `k`-th fetch-and-add claimed it,
    starting at cursor value `k * chunkSize` and clipped to `maxIndex`. -/
theorem claimedChunks_mem (chunkSize maxIndex N : ℕ) (p : ℕ × ℕ)
    (hp : p ∈ claimedChunks chunkSize maxIndex N) :
    ∃ k, k < N ∧ k * chunkSize < maxIndex ∧
      p = (k * chunkSize, min chunkSize (maxIndex - k * chunkSize)) := by
  obtain ⟨k, hk, hsome⟩ := List.mem_filterMap.mp hp
  rw [List.mem_range] at hk
  unfold chunkOfEvent at hsome
  by_cases h : k * chunkSize < maxIndex
  · rw [if_pos h] at hsome
    exact ⟨k, hk, h, (Option.some_inj.mp hsome).symm⟩
  · rw [if_neg h] at hsome
    cases hsome

theorem getElemBang_mem (l : List (List ℤ)) (r : ℕ) (h : r < l.length) : l[r]! ∈ l := by
  rw [getElem!_pos l r h]
  exact List.getElem_mem h

/-- Two groups of buffers agreeing in shape and pointwise are equal. -/
theorem buffers_eq_of_elemAt (as bs : List (List ℤ)) (hlen : as.length = bs.length)
    (hinner : ∀ r, r < as.length → as[r]!.length = bs[r]!.length)
    (helem : ∀ r i, elemAt as r i = elemAt bs r i) : as = bs := by
  apply List.ext_getElem hlen
  intro r h1 h2
  apply List.ext_getElem
  · have hr := hinner r h1
    rwa [getElem!_pos as r h1, getElem!_pos bs r h2] at hr
  · intro i hi1 hi2
    have he := helem r i
    unfold elemAt at he
    rw [List.getD_eq_getElem as [] h1, List.getD_eq_getElem bs [] h2,
      List.getD_eq_getElem _ _ hi1, List.getD_eq_getElem _ _ hi2] at he
    exact he

/-- When no callback raises, every claimed chunk executes and no error is
    reported. -/
theorem runChunks_ok {ε : Type} (f : ℕ × ℕ → Option ε) (l : List (ℕ × ℕ))
    (hok : ∀ ch ∈ l, f ch = none) :
    runChunks f l = ((l.map Prod.snd).sum, none) := by
  induction l with
  | nil => rfl
  | cons ch rest ihl =>
    have hch : f ch = none := hok ch (List.mem_cons_self ch rest)
    simp [runChunks, hch, ihl (fun c hc => hok c (List.mem_cons_of_mem ch hc))]

/-- The first raising chunk determines the single reported error; the chunks
    claimed before it all executed, and later chunks are abandoned. -/
theorem runChunks_error {ε : Type} (f : ℕ × ℕ → Option ε) (pre post : List (ℕ × ℕ))
    (bad : ℕ × ℕ) (e : ε)
    (hpre : ∀ ch ∈ pre, f ch = none) (hbad : f bad = some e) :
    runChunks f (pre ++ bad :: post) = ((pre.map Prod.snd).sum, some e) := by
  induction pre with
  | nil => simp [runChunks, hbad]
  | cons ch rest ihp =>
    have hch : f ch = none := hpre ch (List.mem_cons_self ch rest)
    simp [runChunks, hch, ihp (fun c hc => hpre c (List.mem_cons_of_mem ch hc))]

/-! ## The claims -/

/-- **C1**: for every dispatch invocation with `maxIndex ≥ 0`, a chunk size
    `≥ 1` (the chunk-size heuristic is floored at 1) and at least one
    participating thread — so that fetch-and-add events keep occurring until a
    thread observes an exhausted cursor, i.e. the total event count `N`
    satisfies `maxIndex ≤ N * chunkSize` — the chunks claimed from the shared
    atomic cursor exactly partition `[0, maxIndex)`: concatenating the claimed
    ranges in claim order yields exactly `0, 1, …, maxIndex − 1` (the union
    covers the range and no two chunks overlap), no claimed chunk is empty,
    every chunk has at most the nominal size and is clipped to the boundary
    (so the final chunk may be shorter), and `maxIndex = 0` claims zero
    chunks. -/
theorem dispatch_chunks_partition (chunkSize maxIndex N : ℕ)
    (hc : 1 ≤ chunkSize) (hN : maxIndex ≤ N * chunkSize) :
    ((claimedChunks chunkSize maxIndex N).flatMap fun p => List.range' p.1 p.2)
        = List.range maxIndex ∧
    (∀ p ∈ claimedChunks chunkSize maxIndex N,
        0 < p.2 ∧ p.2 ≤ chunkSize ∧ p.1 + p.2 ≤ maxIndex) ∧
    (maxIndex = 0 → claimedChunks chunkSize maxIndex N = []) := by
  refine ⟨?_, ?_, ?_⟩
  · rw [claimedChunks_flatMap, Nat.min_eq_right hN]
  · intro p hp
    obtain ⟨k, hkN, hkm, rfl⟩ := claimedChunks_mem _ _ _ p hp
    refine ⟨?_, ?_, ?_⟩ <;> dsimp only <;> omega
  · intro h0
    subst h0
    rw [claimedChunks]
    apply List.filterMap_eq_nil_iff.mpr
    intro k _
    simp [chunkOfEvent]

theorem dispatch_chunks_partition_witness :
    (1 ≤ 3 ∧ 7 ≤ 3 * 3) ∧
    ((claimedChunks 3 7 3).flatMap fun p => List.range' p.1 p.2) = List.range 7 ∧
    (∀ p ∈ claimedChunks 3 7 3, 0 < p.2 ∧ p.2 ≤ 3 ∧ p.1 + p.2 ≤ 7) ∧
    (7 = 0 → claimedChunks 3 7 3 = []) :=
  ⟨⟨by decide, by decide⟩, dispatch_chunks_partition 3 7 3 (by decide) (by decide)⟩

/-- **C2**: for a buffer longer than the transport's per-call bound, both
    `sumToAll` and `sumToRoot` split it into fragments of at most
    `maxMessageSize` elements with exactly one collective call per fragment
    (one list entry per fragment), fragments are consecutive (each starts
    where the previous one ends, hence disjoint), issued in strictly
    increasing offset order, applied back into the same offset range, and
    every buffer element belongs to exactly one fragment: the concatenation
    of the fragment ranges in call order is exactly `[0, n)`. -/
theorem oversized_buffer_fragmentation (n : ℕ) (h : maxMessageSize < n) :
    (∀ c ∈ allCallsAux 0 n, 0 < c.2 ∧ c.2 ≤ maxMessageSize) ∧
    List.Chain' (fun a b : ℕ × ℕ => b.1 = a.1 + a.2) (allCallsAux 0 n) ∧
    List.Chain' (fun a b : ℕ × ℕ => a.1 < b.1) (allCallsAux 0 n) ∧
    ((allCallsAux 0 n).flatMap fun c => List.range' c.1 c.2) = List.range n ∧
    rootCallsAux 0 n = allCallsAux 0 n := by
  refine ⟨?_, allCallsAux_chain_adjacent n 0, allCallsAux_chain_mono n 0, ?_,
    rootCallsAux_eq_allCallsAux n 0⟩
  · intro c hc
    have hpos := maxMessageSize_pos
    exact ⟨allCallsAux_count_pos n 0 (by omega) c hc, allCallsAux_count_le n 0 c hc⟩
  · rw [allCallsAux_flatMap_range n 0, List.range_eq_range']

theorem oversized_buffer_fragmentation_witness :
    maxMessageSize < 4294967290 ∧
    ((∀ c ∈ allCallsAux 0 4294967290, 0 < c.2 ∧ c.2 ≤ maxMessageSize) ∧
     List.Chain' (fun a b : ℕ × ℕ => b.1 = a.1 + a.2) (allCallsAux 0 4294967290) ∧
     List.Chain' (fun a b : ℕ × ℕ => a.1 < b.1) (allCallsAux 0 4294967290) ∧
     ((allCallsAux 0 4294967290).flatMap fun c => List.range' c.1 c.2)
        = List.range 4294967290 ∧
     rootCallsAux 0 4294967290 = allCallsAux 0 4294967290) :=
  ⟨by decide, oversized_buffer_fragmentation 4294967290 (by decide)⟩

/-- **C3**: after `sumToAll` on a group in which every participant supplies a
    buffer of the same length `L`, every participant's buffer at every index
    `i < L` holds the element-wise sum over all participants' original
    buffers at `i` (so all-ones inputs yield all-`P` on every participant),
    and the group shape is preserved. -/
theorem sumToAll_elementwise_sum (L : ℕ) (bufs : List (List ℤ))
    (hlen : ∀ b ∈ bufs, b.length = L) :
    (sumToAll L bufs).length = bufs.length ∧
    (∀ b ∈ sumToAll L bufs, b.length = L) ∧
    ∀ r i, r < bufs.length → i < L → elemAt (sumToAll L bufs) r i = sumAt bufs i := by
  by_cases hP : 1 < bufs.length
  · unfold sumToAll
    rw [if_pos hP]
    obtain ⟨h1, h2, h3⟩ := foldl_allreduce L 0 bufs L hlen (by omega)
    refine ⟨h1, h2, ?_⟩
    intro r i hr hi
    rw [h3 r i, if_pos ⟨hr, by omega, by omega⟩]
  · unfold sumToAll
    rw [if_neg hP]
    refine ⟨rfl, hlen, ?_⟩
    intro r i hr hi
    have h1 : bufs.length = 1 := by omega
    obtain ⟨b, hb⟩ := List.length_eq_one.mp h1
    subst hb
    have hr0 : r = 0 := by
      simp only [List.length_singleton] at hr
      omega
    subst hr0
    simp [elemAt, sumAt]

theorem sumToAll_elementwise_sum_witness :
    (∀ b ∈ [[(1:ℤ), 1], [1, 1], [1, 1]], b.length = 2) ∧
    ((sumToAll 2 [[(1:ℤ), 1], [1, 1], [1, 1]]).length
        = [[(1:ℤ), 1], [1, 1], [1, 1]].length ∧
     (∀ b ∈ sumToAll 2 [[(1:ℤ), 1], [1, 1], [1, 1]], b.length = 2) ∧
     ∀ r i, r < [[(1:ℤ), 1], [1, 1], [1, 1]].length → i < 2 →
       elemAt (sumToAll 2 [[(1:ℤ), 1], [1, 1], [1, 1]]) r i
         = sumAt [[(1:ℤ), 1], [1, 1], [1, 1]] i) :=
  ⟨by decide, sumToAll_elementwise_sum 2 [[(1:ℤ), 1], [1, 1], [1, 1]] (by decide)⟩

/-- **C4**: after `sumToRoot` on a group in which every participant supplies a
    buffer of the same length `L`, the root participant's (rank 0) buffer at
    every index `i < L` holds the element-wise sum over all participants'
    original buffers at `i`, and the group shape is preserved.  (Non-root
    buffers are unspecified for callers; in this model of the underlying
    reduce they are simply left unchanged, one admissible behavior.) -/
theorem sumToRoot_root_sum (L : ℕ) (bufs : List (List ℤ))
    (hlen : ∀ b ∈ bufs, b.length = L) :
    (sumToRoot L bufs).length = bufs.length ∧
    (∀ b ∈ sumToRoot L bufs, b.length = L) ∧
    ∀ i, i < L → 0 < bufs.length → elemAt (sumToRoot L bufs) 0 i = sumAt bufs i := by
  by_cases hP : 1 < bufs.length
  · unfold sumToRoot
    rw [if_pos hP]
    obtain ⟨h1, h2, h3⟩ := foldl_reduce L 0 bufs L hlen (by omega)
    refine ⟨h1, h2, ?_⟩
    intro i hi h0
    rw [h3 0 i, if_pos ⟨rfl, by omega, by omega, by omega⟩]
  · unfold sumToRoot
    rw [if_neg hP]
    refine ⟨rfl, hlen, ?_⟩
    intro i hi h0
    have h1 : bufs.length = 1 := by omega
    obtain ⟨b, hb⟩ := List.length_eq_one.mp h1
    subst hb
    simp [elemAt, sumAt]

theorem sumToRoot_root_sum_witness :
    (∀ b ∈ [[(1:ℤ), 1], [1, 1], [1, 1]], b.length = 2) ∧
    ((sumToRoot 2 [[(1:ℤ), 1], [1, 1], [1, 1]]).length
        = [[(1:ℤ), 1], [1, 1], [1, 1]].length ∧
     (∀ b ∈ sumToRoot 2 [[(1:ℤ), 1], [1, 1], [1, 1]], b.length = 2) ∧
     ∀ i, i < 2 → 0 < [[(1:ℤ), 1], [1, 1], [1, 1]].length →
       elemAt (sumToRoot 2 [[(1:ℤ), 1], [1, 1], [1, 1]]) 0 i
         = sumAt [[(1:ℤ), 1], [1, 1], [1, 1]] i) :=
  ⟨by decide, sumToRoot_root_sum 2 [[(1:ℤ), 1], [1, 1], [1, 1]] (by decide)⟩

/-- **C5**: with exact element values, the fragmented reductions of
    `sumToAll` and `sumToRoot` produce element-for-element exactly the state a
    hypothetical single unbounded collective call on the full buffer would
    produce: fragmentation is a transport accommodation with no semantic
    change. -/
theorem fragmentation_semantics_unchanged (L : ℕ) (bufs : List (List ℤ))
    (hlen : ∀ b ∈ bufs, b.length = L) :
    sumToAll L bufs = sumToAllUnbounded L bufs ∧
    sumToRoot L bufs = sumToRootUnbounded L bufs := by
  by_cases hP : 1 < bufs.length
  · constructor
    · unfold sumToAll sumToAllUnbounded
      rw [if_pos hP, if_pos hP]
      obtain ⟨h1, h2, h3⟩ := foldl_allreduce L 0 bufs L hlen (by omega)
      have hlen2 := mpiAllreduceSum_mem_length bufs 0 L L hlen
      apply buffers_eq_of_elemAt
      · rw [h1, mpiAllreduceSum_length]
      · intro r hr
        have hrb : r < bufs.length := by rw [h1] at hr; exact hr
        rw [h2 _ (getElemBang_mem _ r hr),
          hlen2 _ (getElemBang_mem _ r (by rw [mpiAllreduceSum_length]; exact hrb))]
      · intro r i
        rw [h3 r i, elemAt_mpiAllreduceSum bufs 0 L L hlen (by omega) r i]
    · unfold sumToRoot sumToRootUnbounded
      rw [if_pos hP, if_pos hP]
      obtain ⟨h1, h2, h3⟩ := foldl_reduce L 0 bufs L hlen (by omega)
      have hlen2 := mpiReduceSum_mem_length bufs 0 L L hlen
      apply buffers_eq_of_elemAt
      · rw [h1, mpiReduceSum_length]
      · intro r hr
        have hrb : r < bufs.length := by rw [h1] at hr; exact hr
        rw [h2 _ (getElemBang_mem _ r hr),
          hlen2 _ (getElemBang_mem _ r (by rw [mpiReduceSum_length]; exact hrb))]
      · intro r i
        rw [h3 r i, elemAt_mpiReduceSum bufs 0 L L hlen (by omega) r i]
  · unfold sumToAll sumToAllUnbounded sumToRoot sumToRootUnbounded
    rw [if_neg hP, if_neg hP, if_neg hP, if_neg hP]
    exact ⟨rfl, rfl⟩

theorem fragmentation_semantics_unchanged_witness :
    (∀ b ∈ [[(1:ℤ), 2, 3], [4, 5, 6]], b.length = 3) ∧
    (sumToAll 3 [[(1:ℤ), 2, 3], [4, 5, 6]]
        = sumToAllUnbounded 3 [[(1:ℤ), 2, 3], [4, 5, 6]] ∧
     sumToRoot 3 [[(1:ℤ), 2, 3], [4, 5, 6]]
        = sumToRootUnbounded 3 [[(1:ℤ), 2, 3], [4, 5, 6]]) :=
  ⟨by decide, fragmentation_semantics_unchanged 3 [[(1:ℤ), 2, 3], [4, 5, 6]] (by decide)⟩

/-- **C6** (modelled from the spec, the `MultiParallel` implementation not
    being among the sources): when the callback raises on some claimed chunk,
    dispatch reports exactly one error — the first one raised — to its
    caller; chunks claimed before the failure still ran to completion (the
    shared counter holds the sum of their sizes); chunks not yet claimed are
    abandoned; and when no chunk raises, no error is reported and every
    claimed index executed. -/
theorem dispatch_error_propagated_once {ε : Type} (f : ℕ × ℕ → Option ε)
    (pre post : List (ℕ × ℕ)) (bad : ℕ × ℕ) (e : ε)
    (hpre : ∀ ch ∈ pre, f ch = none) (hbad : f bad = some e) :
    runChunks f (pre ++ bad :: post) = ((pre.map Prod.snd).sum, some e) ∧
    ∀ l : List (ℕ × ℕ), (∀ ch ∈ l, f ch = none) →
      runChunks f l = ((l.map Prod.snd).sum, none) :=
  ⟨runChunks_error f pre post bad e hpre hbad, fun l hok => runChunks_ok f l hok⟩

theorem dispatch_error_propagated_once_witness :
    (∀ ch ∈ [((0:ℕ), (2:ℕ)), (2, 2)],
      (fun ch : ℕ × ℕ => if ch.1 = 4 then some 99 else none) ch = none) ∧
    ((fun ch : ℕ × ℕ => if ch.1 = 4 then some 99 else none) (4, 2) = some 99) ∧
    (runChunks (fun ch : ℕ × ℕ => if ch.1 = 4 then some 99 else none)
        ([((0:ℕ), (2:ℕ)), (2, 2)] ++ (4, 2) :: [(6, 2)])
      = (([((0:ℕ), (2:ℕ)), (2, 2)].map Prod.snd).sum, some 99) ∧
     ∀ l : List (ℕ × ℕ),
       (∀ ch ∈ l, (fun ch : ℕ × ℕ => if ch.1 = 4 then some 99 else none) ch = none) →
       runChunks (fun ch : ℕ × ℕ => if ch.1 = 4 then some 99 else none) l
         = ((l.map Prod.snd).sum, none)) :=
  ⟨by decide, by decide,
    dispatch_error_propagated_once (fun ch : ℕ × ℕ => if ch.1 = 4 then some 99 else none)
      [((0:ℕ), (2:ℕ)), (2, 2)] [(6, 2)] (4, 2) 99 (by decide) (by decide)⟩

/-- **C7**: on a first initialization (MPI not yet initialized), the process
    group fails fatally exactly when the transport provides less than the
    funneled threading guarantee; otherwise it establishes the participant
    count and rank reported by the transport and returns normally. -/
theorem pmInit_fatal_iff_unfunneled (env : MPIEnv) (st : PMState)
    (h : env.isInitialized = false) :
    ((∃ msg, pmInit env st = .error msg) ↔ env.provided < MPI_THREAD_FUNNELED) ∧
    (MPI_THREAD_FUNNELED ≤ env.provided →
      pmInit env st = .ok ⟨env.commSize, env.commRank⟩) := by
  constructor
  · constructor
    · rintro ⟨msg, hmsg⟩
      by_contra hge
      rw [pmInit, if_neg (by simp [h]), if_neg hge] at hmsg
      cases hmsg
    · intro hlt
      exact ⟨funneledErrorMessage, by rw [pmInit, if_neg (by simp [h]), if_pos hlt]⟩
  · intro hge
    rw [pmInit, if_neg (by simp [h]), if_neg (Nat.not_lt.mpr hge)]

theorem pmInit_fatal_iff_unfunneled_witness :
    (MPIEnv.mk false 0 4 2).isInitialized = false ∧
    (((∃ msg, pmInit (MPIEnv.mk false 0 4 2) (PMState.mk 1 0) = .error msg) ↔
        (MPIEnv.mk false 0 4 2).provided < MPI_THREAD_FUNNELED) ∧
     (MPI_THREAD_FUNNELED ≤ (MPIEnv.mk false 0 4 2).provided →
        pmInit (MPIEnv.mk false 0 4 2) (PMState.mk 1 0)
          = .ok ⟨(MPIEnv.mk false 0 4 2).commSize, (MPIEnv.mk false 0 4 2).commRank⟩)) :=
  ⟨rfl, pmInit_fatal_iff_unfunneled (MPIEnv.mk false 0 4 2) (PMState.mk 1 0) rfl⟩

/-- **C8**: with exactly one participant, `sumToAll` returns the buffers
    completely unchanged (the `isMultiProc()` guard short-circuits). -/
theorem sumToAll_single_participant (L : ℕ) (bufs : List (List ℤ))
    (h : bufs.length = 1) :
    sumToAll L bufs = bufs := by
  unfold sumToAll
  rw [if_neg (by omega)]

theorem sumToAll_single_participant_witness :
    [[(3:ℤ), 7]].length = 1 ∧ sumToAll 2 [[(3:ℤ), 7]] = [[(3:ℤ), 7]] :=
  ⟨by decide, sumToAll_single_participant 2 [[(3:ℤ), 7]] (by decide)⟩

/-- **C9**: every per-fragment element count passed to a collective call by
    `sumToAll` or `sumToRoot` is at most `INT_MAX - 2`, so the narrowing of
    the `size_t` count to the transport's signed `int` parameter is exact:
    the count is a nonnegative signed value strictly below `INT_MAX`. -/
theorem fragment_counts_fit_in_int (offset n : ℕ) :
    ∀ c ∈ allCallsAux offset n ++ rootCallsAux offset n,
      c.2 ≤ INT_MAX - 2 ∧ 0 ≤ (c.2 : ℤ) ∧ (c.2 : ℤ) < (INT_MAX : ℤ) := by
  intro c hc
  have hle : c.2 ≤ maxMessageSize := by
    rcases List.mem_append.mp hc with hmem | hmem
    · exact allCallsAux_count_le n offset c hmem
    · rw [rootCallsAux_eq_allCallsAux] at hmem
      exact allCallsAux_count_le n offset c hmem
  have hm : maxMessageSize = INT_MAX - 2 := rfl
  have hI : INT_MAX = 2147483647 := rfl
  refine ⟨by omega, by omega, by omega⟩

theorem fragment_counts_fit_in_int_witness :
    ((0, 5) ∈ allCallsAux 0 5 ++ rootCallsAux 0 5) ∧
    (((0:ℕ), (5:ℕ)).2 ≤ INT_MAX - 2 ∧ 0 ≤ ((((0:ℕ), (5:ℕ)).2 : ℕ) : ℤ) ∧
      ((((0:ℕ), (5:ℕ)).2 : ℕ) : ℤ) < (INT_MAX : ℤ)) :=
  ⟨by rw [allCallsAux_le 0 5 (by decide), rootCallsAux_le 0 5 (by decide)]; decide,
   fragment_counts_fit_in_int 0 5 (0, 5)
     (by rw [allCallsAux_le 0 5 (by decide), rootCallsAux_le 0 5 (by decide)]; decide)⟩

/-- **C10**: the collective-call sequence a participant issues is a
    deterministic function of its buffer length alone — two invocations with
    equal-length buffers issue identical `(offset, count)` sequences, and
    `sumToAll` and `sumToRoot` issue the very same sequences, so participants
    supplying equal-length buffers always stay matched — and in a
    multi-process group a zero-length buffer still issues exactly one
    collective call, with element count 0. -/
theorem call_sequences_deterministic (P : ℕ) (arr1 arr2 : List ℤ)
    (hlen : arr1.length = arr2.length) (hP : 1 < P) :
    participantAllCalls P arr1 = participantAllCalls P arr2 ∧
    participantRootCalls P arr1 = participantAllCalls P arr1 ∧
    (arr1.length = 0 → participantAllCalls P arr1 = [(0, 0)]) := by
  refine ⟨?_, ?_, ?_⟩
  · unfold participantAllCalls
    rw [hlen]
  · unfold participantAllCalls participantRootCalls
    rw [if_pos hP, if_pos hP, rootCallsAux_eq_allCallsAux]
  · intro h0
    unfold participantAllCalls
    rw [if_pos hP, h0, allCallsAux_le 0 0 (Nat.zero_le _)]

theorem call_sequences_deterministic_witness :
    (([] : List ℤ).length = ([] : List ℤ).length ∧ 1 < 2) ∧
    (participantAllCalls 2 ([] : List ℤ) = participantAllCalls 2 ([] : List ℤ) ∧
     participantRootCalls 2 ([] : List ℤ) = participantAllCalls 2 ([] : List ℤ) ∧
     (([] : List ℤ).length = 0 → participantAllCalls 2 ([] : List ℤ) = [(0, 0)])) :=
  ⟨⟨rfl, by decide⟩, call_sequences_deterministic 2 ([] : List ℤ) ([] : List ℤ) rfl (by decide)⟩

end SKIRT
